import Mathlib

/-!
Verification development for the ApacheMiner history-mining pipeline.

The Python source is shallowly embedded: Python dicts become association
lists (`lookup` / `dinsert`), exceptions and failed assertions become
`Option.none`, and the in-place parent-pointer graph of the commit aligner
becomes an arena keyed by commit hash.  Every definition follows the
corresponding function of the repository, file and line references are
given in the doc comments.
-/

namespace ApacheMiner

/-- Association-list lookup, modelling Python `dict.__getitem__` (first
match; Python dicts have unique keys, which inserts below maintain). -/
def lookup {α β : Type} [DecidableEq α] : List (α × β) → α → Option β
  | [], _ => none
  | (k, v) :: rest, key => if k = key then some v else lookup rest key

/-- Dict insert: update the entry when the key is present, append a fresh
entry otherwise — Python `d[k] = v`. -/
def dinsert {α β : Type} [DecidableEq α] : List (α × β) → α → β → List (α × β)
  | [], k, v => [(k, v)]
  | (k', v') :: rest, k, v =>
    if k' = k then (k', v) :: rest else (k', v') :: dinsert rest k v

/-- Dict delete, modelling Python `del d[k]` (caller checks presence). -/
def derase {α β : Type} [DecidableEq α] : List (α × β) → α → List (α × β)
  | [], _ => []
  | (k', v') :: rest, k =>
    if k' = k then rest else (k', v') :: derase rest k

/-- Membership of a key, Python `k in d`. -/
def dmem {α β : Type} [DecidableEq α] (d : List (α × β)) (k : α) : Bool :=
  (lookup d k).isSome

end ApacheMiner

namespace ApacheMiner

/-! ## Python string primitives

The Lean core string functions are not kernel-reducible, so the Python
`str` methods used by the source (`split`, `strip`, `replace`,
`startswith`, `in`, `join`) are modelled here by structurally recursive
functions over the character list of the string. -/

/-- Is `pat` a prefix of `s`? -/
def isPrefixL : List Char → List Char → Bool
  | [], _ => true
  | _ :: _, [] => false
  | p :: ps, c :: cs => p == c && isPrefixL ps cs

/-- Worker for `pySplit`: scan `s`, cutting at each occurrence of `pat`.
The fuel is the length of `s` plus one, enough for every step to consume
at least one character. -/
def splitGo (pat : List Char) : Nat → List Char → List Char → List (List Char)
  | 0, s, acc => [acc.reverse ++ s]
  | _ + 1, [], acc => [acc.reverse]
  | fuel + 1, c :: rest, acc =>
    if isPrefixL pat (c :: rest) then
      acc.reverse :: splitGo pat fuel (List.drop (pat.length - 1) rest) []
    else splitGo pat fuel rest (c :: acc)

/-- Python `s.split(sep)` for a nonempty separator: split at every
occurrence, keeping empty parts. -/
def pySplit (s sep : String) : List String :=
  if sep.data.isEmpty then [s]
  else (splitGo sep.data (s.data.length + 1) s.data []).map (fun l => ⟨l⟩)

/-- Python `sep.join(parts)`. -/
def pyJoin (sep : String) : List String → String
  | [] => ""
  | [x] => x
  | x :: xs => x ++ sep ++ pyJoin sep xs

/-- Python `s.replace(pat, rep)` for a nonempty pattern: replace every
occurrence, realised as split-and-join. -/
def pyReplace (s pat rep : String) : String := pyJoin rep (pySplit s pat)

/-- The whitespace characters stripped by Python `str.strip()`. -/
def isPySpace (c : Char) : Bool :=
  c == ' ' || c == '\t' || c == '\n' || c == '\r' || c == '\x0b' || c == '\x0c'

/-- Python `s.strip()`. -/
def pyStrip (s : String) : String :=
  ⟨((s.data.dropWhile isPySpace).reverse.dropWhile isPySpace).reverse⟩

/-- Python `s.startswith(pat)`. -/
def pyStartsWith (s pat : String) : Bool := isPrefixL pat.data s.data

/-- Python `pat in s` for strings. -/
def pyContains (s pat : String) : Bool := (pySplit s pat).length > 1

end ApacheMiner

namespace ApacheMiner

/-! ## Transaction builder (src/discriminators/transaction.py) -/

/-- `pydriller.ModificationType`, restricted to the five kinds that appear in
`modification_map` (transaction.py lines 16-22). -/
inductive MType where
  | ADD | COPY | DELETE | MODIFY | RENAME
deriving DecidableEq, Repr

/-- `reverse_modification_map` (transaction.py lines 25-27): single-letter
code to modification kind; a missing code raises `KeyError`, modelled by
`none`. -/
def revModMap : String → Option MType
  | "A" => some .ADD
  | "C" => some .COPY
  | "D" => some .DELETE
  | "M" => some .MODIFY
  | "R" => some .RENAME
  | _ => none

/-- One row of the builder input, the `FileChanges` TypedDict
(transaction.py lines 62-67). -/
structure FileChange where
  hash : String
  modificationType : String
  file : String
  parents : String
deriving DecidableEq, Repr

/-- `Commit` (transaction.py lines 30-32). -/
structure BCommit where
  number : Nat
  files : List Nat
deriving DecidableEq, Repr

/-- Python `sorted` on a list of numbers (stable ascending insertion sort). -/
def sortNat (l : List Nat) : List Nat :=
  l.foldr (fun x acc => insertAsc x acc) []
where
  insertAsc (x : Nat) : List Nat → List Nat
    | [] => [x]
    | y :: ys => if x ≤ y then x :: y :: ys else y :: insertAsc x ys

/-- The mutable state of `TransactionBuilder.__init__`
(transaction.py lines 227-241). -/
structure BuilderState where
  idCounter : Nat
  idMap : List (String × Nat)
  nameMap : List (Nat × List String)
  transactions : List BCommit
  commitNumber : Nat
deriving DecidableEq, Repr

/-- The fresh builder state. -/
def BuilderState.init : BuilderState :=
  { idCounter := 0, idMap := [], nameMap := [], transactions := [], commitNumber := 0 }

/-- `TransactionBuilder._add` (lines 254-259): asserts the path is unseen,
mints a fresh identity. -/
def builderAdd (st : BuilderState) (fileName : String) : Option (BuilderState × Nat) :=
  if dmem st.idMap fileName then none
  else
    let c := st.idCounter + 1
    some ({ st with idCounter := c,
                    nameMap := dinsert st.nameMap c [fileName],
                    idMap := dinsert st.idMap fileName c }, c)

/-- `TransactionBuilder._delete` (lines 261-265): asserts the path is known,
deletes it, then reads `self._id_map[file_name]` *after* the deletion — the
final lookup always raises `KeyError`, modelled by the trailing `match`. -/
def builderDelete (st : BuilderState) (fileName : String) : Option (BuilderState × Nat) :=
  if dmem st.idMap fileName then
    let c := st.idCounter + 1
    let idMap' := derase st.idMap fileName
    match lookup idMap' fileName with
    | some i => some ({ st with idCounter := c, idMap := idMap' }, i)
    | none => none
  else none

/-- `TransactionBuilder._modify` (lines 267-270). -/
def builderModify (st : BuilderState) (fileName : String) : Option (BuilderState × Nat) :=
  match lookup st.idMap fileName with
  | some i => some ({ st with idCounter := st.idCounter + 1 }, i)
  | none => none

/-- `TransactionBuilder._rename` (lines 272-280): `old|new` transfer of the
identity, appending the new path to the identity's name history. -/
def builderRename (st : BuilderState) (fileName : String) : Option (BuilderState × Nat) :=
  match pySplit fileName "|" with
  | [oldN, newN] =>
    match lookup st.idMap oldN with
    | some idNum =>
      if dmem st.idMap newN then none
      else
        match lookup st.nameMap idNum with
        | some names =>
          some ({ st with idMap := dinsert (derase st.idMap oldN) newN idNum,
                          nameMap := dinsert st.nameMap idNum (names ++ [newN]) }, idNum)
        | none => none
    | none => none
  | _ => none

/-- `TransactionBuilder._copy` (lines 282-286): mints a fresh identity with
no unseen-path assertion. -/
def builderCopy (st : BuilderState) (fileName : String) : Option (BuilderState × Nat) :=
  let c := st.idCounter + 1
  some ({ st with idCounter := c,
                  idMap := dinsert st.idMap fileName c,
                  nameMap := dinsert st.nameMap c [fileName] }, c)

/-- Dispatch through `self._mapping` (lines 232-240) after the
`reverse_modification_map` lookup and `file["file"].strip()` of
`process` (lines 246-248). -/
def applyChange (st : BuilderState) (change : FileChange) : Option (BuilderState × Nat) :=
  match revModMap change.modificationType with
  | some .ADD => builderAdd st (pyStrip change.file)
  | some .COPY => builderCopy st (pyStrip change.file)
  | some .DELETE => builderDelete st (pyStrip change.file)
  | some .MODIFY => builderModify st (pyStrip change.file)
  | some .RENAME => builderRename st (pyStrip change.file)
  | none => none

/-- `TransactionBuilder.process` (lines 243-252).  Note the source declares
`items: list[FileNumber] = []` but never appends the `FileNumber`s returned
by the handlers, so the appended `Commit` always carries `sorted([]) = []`;
the commit is appended unconditionally and `commit_number` always counts up. -/
def process (st : BuilderState) (commit : List FileChange) : Option BuilderState := do
  let items : List Nat := []
  let st ← commit.foldlM (fun s c => (applyChange s c).map Prod.fst) st
  pure { st with
         transactions := st.transactions ++ [⟨st.commitNumber, sortNat items⟩],
         commitNumber := st.commitNumber + 1 }

/-- The `transactions`/`mapping` pair of a built `TransactionLog`
(`TransactionBuilder.build`, lines 288-292). -/
structure LogState where
  commits : List BCommit
  idToNames : List (Nat × List String)
deriving DecidableEq, Repr

/-- `TransactionLog.new_from_commit_data` (lines 409-416): run `process`
over every commit group and `build`. -/
def newFromCommitData (commits : List (List FileChange)) : Option LogState := do
  let st ← commits.foldlM process BuilderState.init
  pure { commits := st.transactions, idToNames := st.nameMap }

end ApacheMiner

namespace ApacheMiner

/-! ## `TransactionLog.from_commit_data` (transaction.py lines 335-399) -/

/-- The registry state threaded through the `from_commit_data` loop
(lines 346-348). -/
structure FcdState where
  idCounter : Nat
  idMap : List (String × Nat)
  nameMap : List (Nat × List String)
deriving DecidableEq, Repr

/-- One iteration of the `for change in group` body of `from_commit_data`
(lines 356-392): the `if/elif` chain over the five modification kinds.
Failed `assert`s and `KeyError`/`ValueError` are `none`.  Unlike
`TransactionBuilder.process`, this loop does append the resolved
`FileNumber` to `items` (returned as the second component). -/
def fcdChange (st : FcdState) (change : FileChange) : Option (FcdState × Nat) :=
  match revModMap change.modificationType with
  | none => none
  | some mt =>
    let fileName := pyStrip change.file
    match mt with
    | .ADD | .COPY =>
      if dmem st.idMap fileName then none
      else
        let c := st.idCounter + 1
        some ({ idCounter := c,
                nameMap := dinsert st.nameMap c [fileName],
                idMap := dinsert st.idMap fileName c }, c)
    | .DELETE =>
      match lookup st.idMap fileName with
      | some idNum =>
        some ({ st with idCounter := st.idCounter + 1,
                        idMap := derase st.idMap fileName }, idNum)
      | none => none
    | .MODIFY =>
      match lookup st.idMap fileName with
      | some idNum => some ({ st with idCounter := st.idCounter + 1 }, idNum)
      | none => none
    | .RENAME =>
      match pySplit change.file "|" with
      | [oldN, newN] =>
        match lookup st.idMap oldN with
        | some idNum =>
          if dmem st.idMap newN then none
          else
            match lookup st.nameMap idNum with
            | some names =>
              some ({ st with idMap := dinsert (derase st.idMap oldN) newN idNum,
                              nameMap := dinsert st.nameMap idNum (names ++ [newN]) },
                    idNum)
            | none => none
        | none => none
      | _ => none

/-- The body run for one commit group of `from_commit_data`
(lines 352-394): resolve every change, then append
`Commit(number=commit_number, files=sorted(items))` — unconditionally,
whatever `items` turned out to be. -/
def fcdGroup (acc : FcdState × List BCommit × Nat) (group : List FileChange) :
    Option (FcdState × List BCommit × Nat) := do
  let (st, transactions, commitNumber) := acc
  let (st, items) ← group.foldlM
    (fun (p : FcdState × List Nat) c => do
      let (st, i) ← fcdChange p.1 c
      pure (st, p.2 ++ [i]))
    (st, [])
  pure (st, transactions ++ [⟨commitNumber, sortNat items⟩], commitNumber + 1)

/-- `TransactionLog.from_commit_data` (lines 335-399): group the rows on
their commit hash (`itertools.groupby` groups *consecutive* runs) and fold
`fcdGroup` over the groups. -/
def fromCommitData (rows : List FileChange) : Option LogState := do
  let groups := rows.splitBy (fun a b => a.hash == b.hash)
  let (st, transactions, _) ← groups.foldlM fcdGroup (⟨0, [], []⟩, [], 0)
  pure { commits := transactions, idToNames := st.nameMap }

/-! ## `TransactionLog` queries used by the discriminators -/

/-- `Transactions.first_occurrence` (transaction.py lines 50-54): the first
commit of the log whose `files` contain the given identity. -/
def firstOccurrence (commits : List BCommit) (fileNumber : Nat) : Option BCommit :=
  commits.find? (fun c => fileNumber ∈ c.files)

/-- `TransactionMap.name_to_id` (transaction.py lines 38-44): the inverted
dict comprehension over `id_to_names`; a name occurring under several ids
keeps the last one written, as in Python. -/
def nameToId (idToNames : List (Nat × List String)) : List (String × Nat) :=
  idToNames.foldl (fun acc e => e.2.foldl (fun acc n => dinsert acc n e.1) acc) []

end ApacheMiner

namespace ApacheMiner

/-! ## Binding-graph artifacts (src/discriminators/binding/file_types.py) -/

/-- `ProgramFile` (file_types.py lines 11-18): `project` is declared
`compare=False, hash=False`, `path` is `compare=True, hash=True`, so the
generated dataclass equality and hash depend on `path` alone.  `isTest`
models the `SourceFile` / `TestFile` subclass split (file_types.py
lines 47-54): dataclass equality first checks that both operands have the
same class. -/
structure ProgramFile where
  project : String
  path : String
  isTest : Bool
deriving DecidableEq, Repr

/-- The dataclass `__eq__` of `ProgramFile` artifacts: the operands must
be of the same class, and then only the `path` field takes part in the
comparison. -/
def pfEq (a b : ProgramFile) : Bool := a.isTest == b.isTest && a.path == b.path

/-- The dataclass `__hash__` of `ProgramFile`: the hash of the one-field
tuple `(path,)`, modelled over an arbitrary underlying string hash. -/
def pfHash (hashStr : String → UInt64) (f : ProgramFile) : UInt64 := hashStr f.path

/-- `ProgramFile.name` (file_types.py lines 16-18): `os.path.basename`. -/
def pfName (f : ProgramFile) : String := ((pySplit f.path "/").getLast?).getD f.path

/-- `ProgramFile.abs_path` (file_types.py lines 39-41): `os.path.join` of
the project root and the project-relative path. -/
def pfAbsPath (f : ProgramFile) : String := f.project ++ "/" ++ f.path

/-! Python dicts and sets keyed by `ProgramFile` compare keys with the
dataclass `__eq__`, i.e. with `pfEq`; the `p*` helpers below are the
`ProgramFile`-keyed counterparts of `lookup`/`dinsert`/`dmem`. -/

/-- Dict lookup keyed by `ProgramFile` (path equality). -/
def plookup {β : Type} : List (ProgramFile × β) → ProgramFile → Option β
  | [], _ => none
  | (k, v) :: rest, key => if pfEq k key then some v else plookup rest key

/-- Dict insert keyed by `ProgramFile` (path equality). -/
def pinsert {β : Type} : List (ProgramFile × β) → ProgramFile → β → List (ProgramFile × β)
  | [], k, v => [(k, v)]
  | (k', v') :: rest, k, v =>
    if pfEq k' k then (k', v) :: rest else (k', v') :: pinsert rest k v

/-- Key membership, Python `k in d` for a `ProgramFile`-keyed dict. -/
def pmem {β : Type} (d : List (ProgramFile × β)) (k : ProgramFile) : Bool :=
  (plookup d k).isSome

/-- Python `x in s` for a set of `ProgramFile`s (modelled as a list). -/
def pelem (x : ProgramFile) (s : List ProgramFile) : Bool := s.any (pfEq x)

/-- Python `set.add` for a set of `ProgramFile`s. -/
def padd (s : List ProgramFile) (x : ProgramFile) : List ProgramFile :=
  if pelem x s then s else s ++ [x]

/-! ## The binding graph (src/discriminators/binding/graph.py) -/

/-- `Graph` (graph.py lines 9-13): source set, test set and the stored
test→sources relation. -/
structure BGraph where
  sourceFiles : List ProgramFile
  testFiles : List ProgramFile
  testToSourceLinks : List (ProgramFile × List ProgramFile)
deriving DecidableEq, Repr

/-- The `links[source].add(test)` step of `Graph.source_to_test_links`:
`defaultdict(set)` access followed by a set add. -/
def addDerivedLink (links : List (ProgramFile × List ProgramFile))
    (source test : ProgramFile) : List (ProgramFile × List ProgramFile) :=
  match plookup links source with
  | some ts => pinsert links source (padd ts test)
  | none => pinsert links source (padd [] test)

/-- `Graph.source_to_test_links` (graph.py lines 46-52): the derived
source→tests relation, accumulated pairwise from the stored relation. -/
def sourceToTestLinks (stored : List (ProgramFile × List ProgramFile)) :
    List (ProgramFile × List ProgramFile) :=
  stored.foldl (fun links e => e.2.foldl (fun links s => addDerivedLink links s e.1) links) []

end ApacheMiner

namespace ApacheMiner

/-! ## Binding strategies (src/discriminators/binding/name_strategy.py,
import_strategy.py)

The strategies construct `Graph(source_files=…, test_files=…, links=…)`
where `links` is one dict holding both directions (test→sources entries and
source→tests entries); `SGraph` is that shape. -/

/-- The `Files` NamedTuple (binding/repository.py lines 22-24). -/
structure RFiles where
  sourceFiles : List ProgramFile
  testFiles : List ProgramFile
deriving DecidableEq, Repr

/-- The graph shape the strategies build: one mixed `links` dict. -/
structure SGraph where
  sourceFiles : List ProgramFile
  testFiles : List ProgramFile
  links : List (ProgramFile × List ProgramFile)
deriving DecidableEq, Repr

/-- The dict comprehension `{file.name: file for files in
repository.files.values() for file in select(files)}` used for
`base_names_tests` / `base_names_source` (name_strategy.py lines 18-27);
later entries overwrite earlier ones, as in Python. -/
def baseNames (repo : List (String × RFiles)) (select : RFiles → List ProgramFile) :
    List (String × ProgramFile) :=
  repo.foldl (fun acc e => (select e.2).foldl (fun acc f => dinsert acc (pfName f) f) acc) []

/-- `NameStrategy._graph_generator` (name_strategy.py lines 17-47): match a
test name with `"Test"` stripped against the source names and record the
link in both directions in the shared `links` defaultdict. -/
def nameStrategyGraph (repo : List (String × RFiles)) : SGraph :=
  let baseTests := baseNames repo RFiles.testFiles
  let baseSrcs := baseNames repo RFiles.sourceFiles
  let links := (baseTests.map Prod.fst).foldl
    (fun links name =>
      let stripped := pyReplace name "Test" ""
      match lookup baseSrcs stripped, lookup baseTests name with
      | some src, some test => addDerivedLink (addDerivedLink links test src) src test
      | _, _ => links)
    []
  { sourceFiles := baseSrcs.map Prod.snd,
    testFiles := baseTests.map Prod.snd,
    links := links }

/-- `ImportStrategy.import_name_of` (import_strategy.py lines 21-30): split
the absolute path on the path separator, find the first `java` component
(`ValueError`, i.e. `none`, when absent), join the following components
with dots and drop every `.java` occurrence. -/
def importNameOf (f : ProgramFile) : Option String :=
  let dirs := pySplit (pfAbsPath f) "/"
  match dirs.findIdx? (· = "java") with
  | some j => some (pyReplace (pyJoin "." (dirs.drop (j + 1))) ".java" "")
  | none => none

/-- `ImportStrategy.fetch_import_names` (import_strategy.py lines 32-40)
over the injected read-lines capability `getSourceCode`: collect stripped
`import` lines until a line containing `class`. -/
def fetchImportNames (getSourceCode : ProgramFile → List String) (f : ProgramFile) :
    List String :=
  go (getSourceCode f)
where
  go : List String → List String
    | [] => []
    | l :: ls =>
      if pyStartsWith l "import" then
        pyStrip (pyReplace (pyReplace l "import " "") ";" "") :: go ls
      else if pyContains l "class" then []
      else go ls

/-- `ImportStrategy.fetch_links` (import_strategy.py lines 42-48): the
sources of the file's own project whose canonical import name occurs among
the file's imports; a project missing from the repository dict or a source
path without a `java` component is an uncaught exception (`none`). -/
def fetchLinks (repo : List (String × RFiles)) (getSourceCode : ProgramFile → List String)
    (f : ProgramFile) : Option (List ProgramFile) := do
  let files ← lookup repo f.project
  files.sourceFiles.foldlM
    (fun acc s => do
      let n ← importNameOf s
      pure (if (fetchImportNames getSourceCode f).contains n then padd acc s else acc))
    []

/-- The body of `ImportStrategy._graph_generator` for one `files` group
(import_strategy.py lines 51-65): `links[test] = fetch_links(test)` and the
reverse `links[source].add(test)` entries, then the subgraph over the
group's own source/test sets. -/
def importSubgraph (repo : List (String × RFiles)) (getSourceCode : ProgramFile → List String)
    (files : RFiles) : Option SGraph := do
  let links ← files.testFiles.foldlM
    (fun links t => do
      let ls ← fetchLinks repo getSourceCode t
      let links := pinsert links t ls
      pure (ls.foldl (fun links s => addDerivedLink links s t) links))
    []
  pure { sourceFiles := files.sourceFiles, testFiles := files.testFiles, links := links }

/-- `ImportStrategy._graph_generator` (import_strategy.py lines 50-65): one
subgraph per repository group. -/
def importStrategyGraphs (repo : List (String × RFiles))
    (getSourceCode : ProgramFile → List String) : Option (List SGraph) :=
  repo.foldlM (fun acc e => do
      let g ← importSubgraph repo getSourceCode e.2
      pure (acc ++ [g]))
    []

end ApacheMiner

namespace ApacheMiner

/-! ## Before/After discriminator
(src/discriminators/before_after_discriminator.py) -/

/-- `TestStatistics` (before_after_discriminator.py lines 17-21). -/
structure TestStat where
  test : ProgramFile
  before : List ProgramFile
  after : List ProgramFile
deriving DecidableEq, Repr

/-- The per-test body of `BeforeAfterDiscriminator.statistics`
(lines 59-87): look up the test's identity and first occurrence, then for
each linked source compare its first occurrence against the test's
(`if commit.number < base_commit.number` puts the source in `before`,
anything else in `after`); tests with no classified source are skipped.
`KeyError`s and failed asserts are `none`. -/
def baStatistics (log : LogState) (g : SGraph) : Option (List TestStat) :=
  g.testFiles.foldlM
    (fun output test => do
      let fileNumber ← lookup (nameToId log.idToNames) test.path
      let baseCommit ← firstOccurrence log.commits fileNumber
      let links ← plookup g.links test
      let (before, after) ← links.foldlM
        (fun (p : List ProgramFile × List ProgramFile) sourceFile => do
          let fn ← lookup (nameToId log.idToNames) sourceFile.path
          let commit ← firstOccurrence log.commits fn
          pure (if commit.number < baseCommit.number
                then (p.1 ++ [sourceFile], p.2)
                else (p.1, p.2 ++ [sourceFile])))
        ([], [])
      pure (if before ≠ [] ∨ after ≠ [] then output ++ [⟨test, before, after⟩] else output))
    []

/-- `BeforeAfterStatistics.aggregate_before` (lines 29-31): the set union
of every per-test `before` list. -/
def aggregateBefore (stats : List TestStat) : List ProgramFile :=
  stats.foldl (fun acc s => s.before.foldl padd acc) []

/-- `BeforeAfterStatistics.aggregate_after` (lines 33-35). -/
def aggregateAfter (stats : List TestStat) : List ProgramFile :=
  stats.foldl (fun acc s => s.after.foldl padd acc) []

/-- `BeforeAfterStatistics.test_first` (lines 37-39):
`aggregate_before - aggregate_after`. -/
def baTestFirst (stats : List TestStat) : List ProgramFile :=
  (aggregateBefore stats).filter (fun f => ¬ pelem f (aggregateAfter stats))

/-! ## Commit-sequence discriminator statistics
(src/discriminators/commit_seq_discriminator.py) -/

/-- `Stats` (commit_seq_discriminator.py lines 20-22): for each substantial
source commit, the linked tests substantially updated in the preceding
interval with the commit numbers of those updates. -/
structure CSStats where
  changedTestsPerCommit : List (Nat × List (ProgramFile × List Nat))
deriving DecidableEq, Repr

/-- `Stats.tfd_count` (lines 24-29): how many of the source's commits have
a nonempty test dict. -/
def tfdCount (s : CSStats) : Nat :=
  (s.changedTestsPerCommit.filter (fun e => ¬ e.2.isEmpty)).length

/-- `Stats.is_tfd` (lines 31-36): an empty dict is never test-first;
otherwise the fraction of qualifying commits must reach the threshold.
The Python float threshold and true division are modelled over `ℚ`. -/
def csIsTfd (s : CSStats) (threshold : ℚ) : Bool :=
  if s.changedTestsPerCommit.isEmpty then false
  else decide ((tfdCount s : ℚ) / (s.changedTestsPerCommit.length : ℚ) ≥ threshold)

/-- `TestedFirstStatistics.test_first` (lines 55-61): the source files
whose `Stats` pass `is_tfd` at the given threshold. -/
def csTestFirst (testStatistics : List (ProgramFile × CSStats)) (threshold : ℚ) :
    List ProgramFile :=
  (testStatistics.filter (fun e => csIsTfd e.2 threshold)).map Prod.fst

end ApacheMiner

namespace ApacheMiner

/-! ## Commit graph aligner (src/discriminators/align.py)

The aligner mutates `CommitNode.parents` lists in place; following the
arena style, the embedding keeps one dict from commit hash to the current
list of parent hashes and rewires by updating that dict.  A commit's
`changes` payload rides along unchanged and is left out; the functions
below compute the sequence of commit hashes.  Walks over the mutable graph
are fueled; `none` covers both uncaught Python exceptions and
non-termination. -/

/-- `changes[0]["parents"].split("|") if changes[0]["parents"] else []`
(align.py lines 126-137). -/
def parseParents (s : String) : List String :=
  if s = "" then [] else pySplit s "|"

/-- The node-construction loop of `_make_main_branch` (align.py
lines 121-140), for inputs that list every parent before its children (the
shape produced by the driller; for other inputs the source falls into the
never-functional `_create_commit_from_changes`, modelled as failure). -/
def buildNodes (commits : List (String × String)) : Option (List (String × List String)) :=
  commits.foldlM
    (fun nodes e =>
      let prnts := parseParents e.2
      if prnts.all (fun p => dmem nodes p) then some (dinsert nodes e.1 prnts) else none)
    []

/-- `Branch.commits` (align.py lines 22-29): the hashes collected walking
first parents from `tail` until `head`, including `head`. -/
def branchCommitsF (nodes : List (String × List String)) (head : String) :
    String → Nat → Option (List String)
  | _, 0 => none
  | tail, fuel + 1 =>
    if tail = head then some [head]
    else do
      let ps ← lookup nodes tail
      let p ← ps.head?
      let rest ← branchCommitsF nodes head p fuel
      pure (tail :: rest)

/-- `CommitAligner.get_successor` (align.py lines 66-72): walk first
parents from the main-branch tail until the target, remembering the node
walked through last; `some none` is Python's `None` result (the target is
the tail). -/
def getSuccessorF (nodes : List (String × List String)) (tail target : String) :
    Nat → Option (Option String) :=
  go tail none
where
  go : String → Option String → Nat → Option (Option String)
    | _, _, 0 => none
    | current, succ, fuel + 1 =>
      if current = target then some succ
      else do
        let ps ← lookup nodes current
        let p ← ps.head?
        go p (some current) fuel

/-- `CommitAligner._trace_path_back_to_main` (align.py lines 148-169):
walk back from the branch tail until the first parent lies on the main
branch; returns the branch head found. -/
def tracePathF (nodes : List (String × List String)) (mainCommits : List String) :
    String → Nat → Option String
  | _, 0 => none
  | node, fuel + 1 => do
    let ps ← lookup nodes node
    let p ← ps.head?
    if p ∈ mainCommits then some node else tracePathF nodes mainCommits p fuel

/-- The `while branch_node.hash not in visited` walk of
`CommitAligner._stitch_path` (align.py lines 193-197): returns the final
`branch_node_previous`. -/
def stitchWalk (nodes : List (String × List String)) (visited : List String) :
    String → String → Nat → Option String
  | _, _, 0 => none
  | prev, bn, fuel + 1 =>
    if bn ∈ visited then some prev
    else do
      let ps ← lookup nodes bn
      let p ← ps.head?
      stitchWalk nodes visited bn p fuel

/-- Python `l[0] = x` (IndexError on an empty list). -/
def setHead {α : Type} (l : List α) (x : α) : Option (List α) :=
  match l with
  | [] => none
  | _ :: t => some (x :: t)

/-- `node.parents[0] = node.parents.pop()` (align.py line 203): pop the
last element, then assign it to index 0. -/
def popAssign (l : List String) : Option (List String) :=
  match l.getLast? with
  | none => none
  | some last => setHead l.dropLast last

/-- `CommitAligner._stitch_path` (align.py lines 171-205): find the
earliest not-yet-visited node of the path, rewire its first parent to the
merge commit's first parent, and collapse the merge commit's parent list
via `pop`; returns the updated arena with the stitched branch's head and
tail (`Branch(branch_node_previous, node)`). -/
def stitchPath (nodes : List (String × List String)) (node pathTail : String)
    (visited : List String) (fuel : Nat) : Option (List (String × List String) × String × String) := do
  let prev ← stitchWalk nodes visited node pathTail fuel
  let nodePs ← lookup nodes node
  let np0 ← nodePs.head?
  let prevPs ← lookup nodes prev
  let prevPs' ← setHead prevPs np0
  let nodes1 := dinsert nodes prev prevPs'
  let nodePs1 ← lookup nodes1 node
  let nodePs1' ← popAssign nodePs1
  pure (dinsert nodes1 node nodePs1', prev, node)

/-- Python `set.add` on a set of strings (modelled as a list). -/
def insertSet (s : List String) (x : String) : List String :=
  if x ∈ s then s else s ++ [x]

/-- Python `set.update`. -/
def unionSet (s : List String) (xs : List String) : List String :=
  xs.foldl insertSet s

/-- The state mutated by `_inline_branches`: the parent arena, the
`visited` set and the lazily cached `self._main_branch.commits`
(a `cached_property`, computed from the arena as it stands at its first
use and frozen thereafter). -/
structure InlineState where
  nodes : List (String × List String)
  visited : List String
  cache : Option (List String)
deriving Repr

/-- `CommitAligner._inline_branches` (align.py lines 207-231): walk the
chain from the head; at each two-parent node take the side branch — the
second parent alone when it is already visited, else the traced path — and
stitch it in, resuming from the stitched branch's head. -/
def inlineLoop (head tail : String) : InlineState → Option String → Nat → Option InlineState
  | st, none, _ => some st
  | _, some _, 0 => none
  | st, some c, fuel + 1 => do
    let wf := st.nodes.length + 2
    let visited := insertSet st.visited c
    let ps ← lookup st.nodes c
    if ps.length ≠ 2 then do
      let succ ← getSuccessorF st.nodes tail c wf
      inlineLoop head tail { st with visited := visited } succ fuel
    else do
      let p1 ← ps.get? 1
      let (pathTail, cache) ←
        if p1 ∈ visited then some (p1, st.cache)
        else do
          let mc ← match st.cache with
            | some mc => some mc
            | none => branchCommitsF st.nodes head tail wf
          let _ ← tracePathF st.nodes mc p1 wf
          some (p1, some mc)
      let (nodes', bHead, bTail) ← stitchPath st.nodes c pathTail visited wf
      let bc ← branchCommitsF nodes' bHead bTail wf
      inlineLoop head tail
        { nodes := nodes', visited := unionSet visited bc, cache := cache }
        (some bHead) fuel

/-- `CommitAligner.__iter__` (align.py lines 233-240): read the chain from
the head through `get_successor`. -/
def iterOrder (nodes : List (String × List String)) (tail : String) :
    String → Nat → Option (List String)
  | _, 0 => none
  | c, fuel + 1 => do
    let s ← getSuccessorF nodes tail c (nodes.length + 2)
    match s with
    | none => pure [c]
    | some nxt => do
      let rest ← iterOrder nodes tail nxt fuel
      pure (c :: rest)

/-- The post-alignment sanity walk of `CommitAligner.__init__` (align.py
lines 60-64): from the tail every node has exactly one parent until a
parentless node, which must be the head. -/
def checkLinear (nodes : List (String × List String)) (head : String) :
    String → Nat → Option Unit
  | _, 0 => none
  | t, fuel + 1 => do
    let ps ← lookup nodes t
    match ps with
    | [] => if t = head then some () else none
    | [p] => checkLinear nodes head p fuel
    | _ => none

/-- The full aligner run: `CommitAligner.__init__` (arena construction,
the head-has-no-parents assert of `_make_main_branch`, `_inline_branches`,
the linearity assert) followed by `__iter__`. -/
def alignRun (commits : List (String × String)) (fuel : Nat) : Option (List String) := do
  let nodes ← buildNodes commits
  let head ← (commits.head?).map Prod.fst
  let tail ← (commits.getLast?).map Prod.fst
  let hp ← lookup nodes head
  if hp ≠ [] then none
  else do
    let st ← inlineLoop head tail ⟨nodes, [], none⟩ (some head) fuel
    let _ ← checkLinear st.nodes head tail fuel
    iterOrder st.nodes tail head fuel

/-- The chain as `__iter__` would read it from the freshly built arena,
before any splicing — the "linear chain" a splice acts on. -/
def initialChain (commits : List (String × String)) (fuel : Nat) : Option (List String) := do
  let nodes ← buildNodes commits
  let head ← (commits.head?).map Prod.fst
  let tail ← (commits.getLast?).map Prod.fst
  iterOrder nodes tail head fuel

end ApacheMiner

namespace ApacheMiner

/-! ## Properties of binding graphs used by the claims -/

/-- An artifact belongs to the set of its own kind in a strategy graph:
test artifacts to the test-file set, source artifacts to the source-file
set. -/
def kindMem (g : SGraph) (x : ProgramFile) : Prop :=
  (x.isTest = true → x ∈ g.testFiles) ∧ (x.isTest = false → x ∈ g.sourceFiles)

/-- The membership invariant: every artifact appearing in a link — as the
entry's key or inside its member set — lies in the set of its kind. -/
def linkInvariant (g : SGraph) : Prop :=
  ∀ e ∈ g.links, kindMem g e.1 ∧ ∀ b ∈ e.2, kindMem g b

/-- All keys and members of a links dict satisfy a predicate. -/
def InvP (P : ProgramFile → Prop) (links : List (ProgramFile × List ProgramFile)) : Prop :=
  ∀ e ∈ links, P e.1 ∧ ∀ b ∈ e.2, P b

/-- A repository dict is well-kinded when the `Files` groups hold
`TestFile` instances in `test_files` and `SourceFile` instances in
`source_files`, as their NamedTuple types state. -/
def repoWellKinded (repo : List (String × RFiles)) : Prop :=
  ∀ e ∈ repo, (∀ t ∈ e.2.testFiles, t.isTest = true) ∧
    (∀ s ∈ e.2.sourceFiles, s.isTest = false)

/-- A repository dict is project-keyed when each group's files carry the
group's key as their `project` and the keys are distinct — the shape
`JavaRepository.files` constructs (binding/repository.py lines 79-87). -/
def repoProjectKeyed (repo : List (String × RFiles)) : Prop :=
  (repo.map Prod.fst).Nodup ∧
    ∀ e ∈ repo, ∀ t ∈ e.2.testFiles, t.project = e.1

end ApacheMiner

namespace ApacheMiner

/-! ## Helper lemmas on the dict and set models -/

theorem lookup_dinsert_self {α β : Type} [DecidableEq α]
    (d : List (α × β)) (k : α) (v : β) : lookup (dinsert d k v) k = some v := by
  induction d with
  | nil => simp [dinsert, lookup]
  | cons e rest ih =>
    obtain ⟨k', v'⟩ := e
    by_cases h : k' = k <;> simp [dinsert, lookup, h, ih]

theorem lookup_dinsert_ne {α β : Type} [DecidableEq α]
    (d : List (α × β)) (k k' : α) (v : β) (h : k ≠ k') :
    lookup (dinsert d k v) k' = lookup d k' := by
  induction d with
  | nil => simp [dinsert, lookup, h]
  | cons e rest ih =>
    obtain ⟨k1, v1⟩ := e
    by_cases h1 : k1 = k
    · subst h1
      simp [dinsert, lookup, h]
    · by_cases h2 : k1 = k' <;> simp [dinsert, lookup, h1, h2, Ne.symm h, ih]

/-- Every value of a dict (`d.values()`) built by lookups is an element of
the value list. -/
theorem lookup_mem_values {α β : Type} [DecidableEq α]
    (d : List (α × β)) (k : α) (v : β) (h : lookup d k = some v) :
    v ∈ d.map Prod.snd := by
  induction d with
  | nil => simp [lookup] at h
  | cons e rest ih =>
    obtain ⟨k', v'⟩ := e
    by_cases hk : k' = k
    · simp [lookup, hk] at h
      simp [h]
    · simp [lookup, hk] at h
      simpa using Or.inr (ih h)

theorem pfEq_iff (a b : ProgramFile) :
    pfEq a b = true ↔ a.isTest = b.isTest ∧ a.path = b.path := by
  simp [pfEq]

theorem pfEq_refl (a : ProgramFile) : pfEq a a = true := by simp [pfEq]

theorem pfEq_symm (a b : ProgramFile) (h : pfEq a b = true) : pfEq b a = true := by
  rw [pfEq_iff] at h ⊢
  exact ⟨h.1.symm, h.2.symm⟩

theorem pfEq_trans (a b c : ProgramFile) (h1 : pfEq a b = true) (h2 : pfEq b c = true) :
    pfEq a c = true := by
  rw [pfEq_iff] at h1 h2 ⊢
  exact ⟨h1.1.trans h2.1, h1.2.trans h2.2⟩

theorem plookup_pinsert_self {β : Type} (d : List (ProgramFile × β))
    (k key : ProgramFile) (v : β) (h : pfEq k key = true) :
    plookup (pinsert d k v) key = some v := by
  induction d with
  | nil => simp [pinsert, plookup, h]
  | cons e rest ih =>
    obtain ⟨k', v'⟩ := e
    by_cases hk : pfEq k' k = true
    · simp [pinsert, plookup, hk, pfEq_trans k' k key hk h]
    · have hk2 : ¬ pfEq k' key = true := fun hcon =>
        hk (pfEq_trans k' key k hcon (pfEq_symm k key h))
      simp [pinsert, plookup, hk, hk2, ih]

theorem plookup_pinsert_other {β : Type} (d : List (ProgramFile × β))
    (k key : ProgramFile) (v : β) (h : pfEq k key = false) :
    plookup (pinsert d k v) key = plookup d key := by
  induction d with
  | nil => simp [pinsert, plookup, h]
  | cons e rest ih =>
    obtain ⟨k', v'⟩ := e
    by_cases hk : pfEq k' k = true
    · have hk2 : ¬ pfEq k' key = true := fun hcon => by
        have := pfEq_trans k k' key (pfEq_symm k' k hk) hcon
        simp [h] at this
      simp [pinsert, plookup, hk, hk2]
    · by_cases hk3 : pfEq k' key = true <;> simp [pinsert, plookup, hk, hk3, ih]

/-- A successful `plookup` comes from some entry of the dict whose key
compares equal to the query. -/
theorem plookup_exists_entry {β : Type} (d : List (ProgramFile × β))
    (key : ProgramFile) (v : β) (h : plookup d key = some v) :
    ∃ k₀, (k₀, v) ∈ d ∧ pfEq k₀ key = true := by
  induction d with
  | nil => simp [plookup] at h
  | cons e rest ih =>
    obtain ⟨k', v'⟩ := e
    by_cases hk : pfEq k' key = true
    · simp [plookup, hk] at h
      exact ⟨k', by simp [h], hk⟩
    · simp [plookup, hk] at h
      obtain ⟨k₀, hmem, heq⟩ := ih h
      exact ⟨k₀, by simp [hmem], heq⟩

/-- Every entry of `pinsert d k v` is an old entry, the new pair `(k, v)`,
or an old key rebound to `v`. -/
theorem mem_pinsert {β : Type} (d : List (ProgramFile × β))
    (k : ProgramFile) (v : β) (e : ProgramFile × β) (h : e ∈ pinsert d k v) :
    e ∈ d ∨ e = (k, v) ∨ ∃ v₀, (e.1, v₀) ∈ d ∧ e.2 = v := by
  induction d with
  | nil =>
    simp [pinsert] at h
    exact Or.inr (Or.inl h)
  | cons e' rest ih =>
    obtain ⟨k', v'⟩ := e'
    by_cases hk : pfEq k' k = true
    · simp [pinsert, hk] at h
      rcases h with h | h
      · exact Or.inr (Or.inr ⟨v', by simp [h], by simp [h]⟩)
      · exact Or.inl (by simp [h])
    · simp [pinsert, hk] at h
      rcases h with h | h
      · exact Or.inl (by simp [h])
      · rcases ih h with h1 | h1 | ⟨v₀, h1, h2⟩
        · exact Or.inl (by simp [h1])
        · exact Or.inr (Or.inl h1)
        · exact Or.inr (Or.inr ⟨v₀, by simp [h1], h2⟩)

/-- Membership in a `padd`-extended set. -/
theorem mem_padd (s : List ProgramFile) (x y : ProgramFile) (h : y ∈ padd s x) :
    y ∈ s ∨ y = x := by
  unfold padd at h
  by_cases hp : pelem x s = true
  · simp [hp] at h
    exact Or.inl h
  · simp [hp] at h
    exact h

/-- Python membership in a `padd`-extended set. -/
theorem pelem_padd (s : List ProgramFile) (x y : ProgramFile) :
    pelem y (padd s x) = true ↔ (pelem y s = true ∨ pfEq y x = true) := by
  unfold padd
  by_cases hp : pelem x s = true
  · rw [if_pos hp]
    constructor
    · exact Or.inl
    · rintro (hy | hyx)
      · exact hy
      · simp [pelem] at hp ⊢
        obtain ⟨z, hz, hzeq⟩ := hp
        exact ⟨z, hz, pfEq_trans y x z hyx hzeq⟩
  · rw [if_neg hp]
    simp [pelem, List.any_append]

end ApacheMiner

namespace ApacheMiner

/-! ## Claim theorems -/

/-- C5: for the commit DAG with mainline W→X→Z and side branch B→C→D→E
branching from W and merged at Z via second parent E, the aligner produces
the linear commit order W,X,B,C,D,E,Z, the side branch spliced in
contiguously. -/
theorem c5_single_merge_alignment :
    alignRun [("W", ""), ("X", "W"), ("B", "W"), ("C", "B"), ("D", "C"),
      ("E", "D"), ("Z", "X|E")] 100
      = some ["W", "X", "B", "C", "D", "E", "Z"] := by decide

/-- C4, counterexample: in the DAG R→A→M with M a merge of first parent A
and second parent R, the merge's second parent R is already on the visited
main branch, yet the splice is not a no-op: the chain before the splice is
R,A,M and the aligner reads out R,M — commit A is dropped. -/
theorem c4_counterexample :
    alignRun [("R", ""), ("A", "R"), ("M", "A|R")] 100 = some ["R", "M"] ∧
    initialChain [("R", ""), ("A", "R"), ("M", "A|R")] 100 = some ["R", "A", "M"] ∧
    (["R", "M"] : List String) ≠ ["R", "A", "M"] := by decide

/-- C4, amended: when a merge node's second parent is already visited, the
side branch collapses to that single visited node and the splice replaces
the merge node's two-parent list `[a, b]` by `[b]` — rewiring the chain to
the second parent rather than leaving it unchanged — while every other
node's parents stay untouched; the stitched branch is the merge node
alone. -/
theorem c4_amended_diamond_splice (nodes : List (String × List String))
    (n a b : String) (visited : List String) (fuel : Nat)
    (hps : lookup nodes n = some [a, b]) (hv : b ∈ visited) (hfuel : 1 ≤ fuel) :
    stitchPath nodes n b visited fuel
      = some (dinsert (dinsert nodes n [a, b]) n [b], n, n) ∧
    lookup (dinsert (dinsert nodes n [a, b]) n [b]) n = some [b] ∧
    ∀ m, m ≠ n →
      lookup (dinsert (dinsert nodes n [a, b]) n [b]) m = lookup nodes m := by
  obtain ⟨f, rfl⟩ : ∃ f, fuel = f + 1 := ⟨fuel - 1, by omega⟩
  refine ⟨?_, ?_, ?_⟩
  · simp [stitchPath, stitchWalk, hv, hps, setHead, popAssign, lookup_dinsert_self]
  · exact lookup_dinsert_self _ _ _
  · intro m hm
    rw [lookup_dinsert_ne _ _ _ _ (Ne.symm hm), lookup_dinsert_ne _ _ _ _ (Ne.symm hm)]

/-- Witness for the amended C4 theorem at the merge node of the
counterexample DAG. -/
theorem c4_amended_diamond_splice_witness :
    stitchPath [("M", ["A", "R"])] "M" "R" ["R"] 1
      = some (dinsert (dinsert [("M", ["A", "R"])] "M" ["A", "R"]) "M" ["R"], "M", "M") ∧
    lookup (dinsert (dinsert [("M", ["A", "R"])] "M" ["A", "R"]) "M" ["R"]) "M"
      = some ["R"] ∧
    ∀ m, m ≠ "M" →
      lookup (dinsert (dinsert [("M", ["A", "R"])] "M" ["A", "R"]) "M" ["R"]) m
        = lookup [("M", ["A", "R"])] m :=
  c4_amended_diamond_splice [("M", ["A", "R"])] "M" "A" "R" ["R"] 1
    (by decide) (by decide) (by decide)

/-- C2, counterexample: processing a commit containing a delete of a path
with no registered identity does not drop the event silently — the
builder's `assert file_name in self._id_map` fails and the run aborts
(`none`), the registry and transaction list are not preserved-and-continued. -/
theorem c2_counterexample :
    process BuilderState.init [⟨"c0", "D", "f", ""⟩] = none := by decide

/-- C2, amended: a delete event whose stripped path has no registered
identity is fatal, in both `TransactionBuilder._delete` (reached through
`process`'s dispatch) and the delete branch of
`TransactionLog.from_commit_data`. -/
theorem c2_amended_unknown_delete_fatal (stB : BuilderState) (stF : FcdState)
    (chB chF : FileChange)
    (hmodB : chB.modificationType = "D") (hmodF : chF.modificationType = "D")
    (hB : lookup stB.idMap (pyStrip chB.file) = none)
    (hF : lookup stF.idMap (pyStrip chF.file) = none) :
    applyChange stB chB = none ∧ fcdChange stF chF = none := by
  constructor
  · simp [applyChange, hmodB, revModMap, builderDelete, dmem, hB]
  · simp [fcdChange, hmodF, revModMap, hF]

/-- Witness for the amended C2 theorem: deleting `f` in the empty registry
fails on both paths. -/
theorem c2_amended_unknown_delete_fatal_witness :
    applyChange BuilderState.init ⟨"c0", "D", "f", ""⟩ = none ∧
    fcdChange ⟨0, [], []⟩ ⟨"c0", "D", "f", ""⟩ = none :=
  c2_amended_unknown_delete_fatal BuilderState.init ⟨0, [], []⟩
    ⟨"c0", "D", "f", ""⟩ ⟨"c0", "D", "f", ""⟩ rfl rfl (by decide) (by decide)

/-- C3: the built `TransactionLog` does not omit commits that yield zero
`ChangeEvent`s.  `TransactionBuilder.process` never collects the handlers'
returned `FileNumber`s into `items`, so here a two-commit history of two
adds builds a log whose commits both carry empty `files` — zero recorded
events — and both are retained, numbered consecutively over the full input
sequence. -/
theorem c3_zero_event_commits_retained :
    newFromCommitData [[⟨"c0", "A", "a", ""⟩], [⟨"c1", "A", "b", ""⟩]]
      = some { commits := [⟨0, []⟩, ⟨1, []⟩],
               idToNames := [(1, ["a"]), (2, ["b"])] } := by decide

/-- C1: evaluating `BeforeAfterDiscriminator.statistics` on the history
whose single commit C0 adds `A` and its linked test `ATest`: the source's
first appearance coincides with the test's, `commit.number <
base_commit.number` is false, so `A` lands in `after` — the statistics
report 0 test-first and 1 test-after, not 1 and 0. -/
theorem c1_simultaneous_add_classified_after :
    (fromCommitData [⟨"c0", "A", "A.java", ""⟩, ⟨"c0", "A", "ATest.java", ""⟩]).bind
      (fun log => baStatistics log
        { sourceFiles := [⟨"p", "A.java", false⟩],
          testFiles := [⟨"p", "ATest.java", true⟩],
          links := [(⟨"p", "ATest.java", true⟩, [⟨"p", "A.java", false⟩])] })
      = some [⟨⟨"p", "ATest.java", true⟩, [], [⟨"p", "A.java", false⟩]⟩] ∧
    baTestFirst [⟨⟨"p", "ATest.java", true⟩, [], [⟨"p", "A.java", false⟩]⟩] = [] ∧
    aggregateAfter [⟨⟨"p", "ATest.java", true⟩, [], [⟨"p", "A.java", false⟩]⟩]
      = [⟨"p", "A.java", false⟩] := by decide

end ApacheMiner

namespace ApacheMiner

/-- C7: identity stability.  Starting from the fresh builder, the sequence
add(p0), rename(p0,p1), modify(p1), rename(p1,p2) — the rename events
carrying the `old|new` encoded strings `r1`, `r2` — resolves every
operation to the FileNumber 1 minted by the initial add; the identity is
never reassigned (the path map always maps the current path to 1) and each
rename appends the new path to identity 1's path-history list, ending at
`[p0, p1, p2]`. -/
theorem c7_identity_stability (p0 p1 p2 r1 r2 : String)
    (h1 : pySplit r1 "|" = [p0, p1]) (h2 : pySplit r2 "|" = [p1, p2])
    (h01 : p0 ≠ p1) (h12 : p1 ≠ p2) :
    builderAdd BuilderState.init p0
      = some (⟨1, [(p0, 1)], [(1, [p0])], [], 0⟩, 1) ∧
    builderRename ⟨1, [(p0, 1)], [(1, [p0])], [], 0⟩ r1
      = some (⟨1, [(p1, 1)], [(1, [p0, p1])], [], 0⟩, 1) ∧
    builderModify ⟨1, [(p1, 1)], [(1, [p0, p1])], [], 0⟩ p1
      = some (⟨2, [(p1, 1)], [(1, [p0, p1])], [], 0⟩, 1) ∧
    builderRename ⟨2, [(p1, 1)], [(1, [p0, p1])], [], 0⟩ r2
      = some (⟨2, [(p2, 1)], [(1, [p0, p1, p2])], [], 0⟩, 1) := by
  refine ⟨?_, ?_, ?_, ?_⟩
  · simp [builderAdd, BuilderState.init, dmem, lookup, dinsert]
  · simp [builderRename, h1, lookup, dmem, h01, Ne.symm h01, derase, dinsert]
  · simp [builderModify, lookup]
  · simp [builderRename, h2, lookup, dmem, h12, Ne.symm h12, derase, dinsert]

/-- Witness for C7 at the concrete paths `a`, `b`, `c` with rename strings
`a|b` and `b|c`. -/
theorem c7_identity_stability_witness :
    builderAdd BuilderState.init "a"
      = some (⟨1, [("a", 1)], [(1, ["a"])], [], 0⟩, 1) ∧
    builderRename ⟨1, [("a", 1)], [(1, ["a"])], [], 0⟩ "a|b"
      = some (⟨1, [("b", 1)], [(1, ["a", "b"])], [], 0⟩, 1) ∧
    builderModify ⟨1, [("b", 1)], [(1, ["a", "b"])], [], 0⟩ "b"
      = some (⟨2, [("b", 1)], [(1, ["a", "b"])], [], 0⟩, 1) ∧
    builderRename ⟨2, [("b", 1)], [(1, ["a", "b"])], [], 0⟩ "b|c"
      = some (⟨2, [("c", 1)], [(1, ["a", "b", "c"])], [], 0⟩, 1) :=
  c7_identity_stability "a" "b" "c" "a|b" "b|c"
    (by decide) (by decide) (by decide) (by decide)

end ApacheMiner

namespace ApacheMiner

/-- C6: Commit-Sequence threshold monotonicity.  For any computed
statistics map and thresholds `t1 ≤ t2`, every source file classified
test-first at `t2` is also classified test-first at `t1`: `is_tfd`
compares the fixed fraction of qualifying commits against the threshold,
so lowering the threshold can only enlarge the test-first set. -/
theorem c6_threshold_monotonicity (stats : List (ProgramFile × CSStats)) (t1 t2 : ℚ)
    (h : t1 ≤ t2) (s : ProgramFile) (hs : s ∈ csTestFirst stats t2) :
    s ∈ csTestFirst stats t1 := by
  unfold csTestFirst at hs ⊢
  simp only [List.mem_map, List.mem_filter] at hs ⊢
  obtain ⟨e, ⟨he, htfd⟩, rfl⟩ := hs
  refine ⟨e, ⟨he, ?_⟩, rfl⟩
  unfold csIsTfd at htfd ⊢
  by_cases hemp : e.2.changedTestsPerCommit.isEmpty
  · simp [hemp] at htfd
  · rw [if_neg hemp] at htfd
    rw [if_neg hemp]
    rw [decide_eq_true_eq] at htfd ⊢
    exact le_trans h htfd

/-- Witness for C6: a source whose single qualifying commit gives fraction
1 is test-first at threshold 3/4, hence also at the lower threshold 1/2. -/
theorem c6_threshold_monotonicity_witness :
    (1 : ℚ) / 2 ≤ 3 / 4 ∧
    (⟨"p", "A.java", false⟩ : ProgramFile) ∈
      csTestFirst
        [(⟨"p", "A.java", false⟩, ⟨[(0, [(⟨"p", "ATest.java", true⟩, [0])])]⟩)]
        ((1 : ℚ) / 2) :=
  ⟨by norm_num,
    c6_threshold_monotonicity
      [(⟨"p", "A.java", false⟩, ⟨[(0, [(⟨"p", "ATest.java", true⟩, [0])])]⟩)]
      ((1 : ℚ) / 2) ((3 : ℚ) / 4) (by norm_num) ⟨"p", "A.java", false⟩
      (by simp [csTestFirst, csIsTfd, tfdCount]; norm_num)⟩

/-- C9: artifact equality is determined purely by the project-relative
path.  For two artifacts of the same kind, the dataclass equality holds
exactly when the paths are equal — whatever the containing-project roots —
and path equality makes the dataclass hashes (computed from the `(path,)`
field tuple over any underlying string hash) agree. -/
theorem c9_artifact_equality (a b : ProgramFile) (hk : a.isTest = b.isTest) :
    (pfEq a b = true ↔ a.path = b.path) ∧
    ∀ hashStr : String → UInt64, a.path = b.path → pfHash hashStr a = pfHash hashStr b := by
  constructor
  · rw [pfEq_iff]
    simp [hk]
  · intro hashStr hp
    simp [pfHash, hp]

/-- Witness for C9: two same-kind artifacts under different project roots
with the same relative path. -/
theorem c9_artifact_equality_witness :
    (pfEq ⟨"root1", "x.java", false⟩ ⟨"root2", "x.java", false⟩ = true ↔
      ("x.java" : String) = "x.java") ∧
    ∀ hashStr : String → UInt64, ("x.java" : String) = "x.java" →
      pfHash hashStr ⟨"root1", "x.java", false⟩ = pfHash hashStr ⟨"root2", "x.java", false⟩ :=
  c9_artifact_equality ⟨"root1", "x.java", false⟩ ⟨"root2", "x.java", false⟩ rfl

end ApacheMiner

namespace ApacheMiner

/-- `plookup` only depends on the query up to dataclass equality. -/
theorem plookup_congr {β : Type} (d : List (ProgramFile × β)) (k1 k2 : ProgramFile)
    (h : pfEq k1 k2 = true) : plookup d k1 = plookup d k2 := by
  induction d with
  | nil => rfl
  | cons e rest ih =>
    obtain ⟨k', v'⟩ := e
    by_cases hk : pfEq k' k1 = true
    · simp [plookup, hk, pfEq_trans k' k1 k2 hk h]
    · have hk2 : ¬ pfEq k' k2 = true := fun hcon =>
        hk (pfEq_trans k' k2 k1 hcon (pfEq_symm k1 k2 h))
      simp [plookup, hk, hk2, ih]

/-- Lookup through one `links[source].add(test)` step. -/
theorem plookup_addDerivedLink (links : List (ProgramFile × List ProgramFile))
    (s t key : ProgramFile) :
    plookup (addDerivedLink links s t) key =
      if pfEq s key = true then some (padd ((plookup links s).getD []) t)
      else plookup links key := by
  unfold addDerivedLink
  by_cases hk : pfEq s key = true
  · cases h : plookup links s with
    | some ts => simp [h, hk, plookup_pinsert_self _ _ _ _ hk]
    | none => simp [h, hk, plookup_pinsert_self _ _ _ _ hk]
  · have hk' : pfEq s key = false := by simp at hk; exact hk
    cases h : plookup links s with
    | some ts => simp [h, hk, plookup_pinsert_other _ _ _ _ hk']
    | none => simp [h, hk, plookup_pinsert_other _ _ _ _ hk']

/-- Membership through one `links[source].add(test)` step. -/
theorem pelem_addDerivedLink (links : List (ProgramFile × List ProgramFile))
    (s t key t' : ProgramFile) :
    pelem t' ((plookup (addDerivedLink links s t) key).getD []) = true ↔
      (pelem t' ((plookup links key).getD []) = true ∨
        (pfEq s key = true ∧ pfEq t' t = true)) := by
  rw [plookup_addDerivedLink]
  by_cases hk : pfEq s key = true
  · rw [if_pos hk]
    rw [plookup_congr links s key hk]
    simp only [Option.getD_some, hk, true_and]
    exact pelem_padd _ _ _
  · rw [if_neg hk]
    simp [hk]

/-- Membership after the inner fold of `source_to_test_links` over the
sources of one stored entry. -/
theorem pelem_innerFold (ss : List ProgramFile)
    (links : List (ProgramFile × List ProgramFile)) (t key t' : ProgramFile) :
    pelem t' ((plookup (ss.foldl (fun l s => addDerivedLink l s t) links) key).getD [])
        = true ↔
      (pelem t' ((plookup links key).getD []) = true ∨
        (pelem key ss = true ∧ pfEq t' t = true)) := by
  induction ss generalizing links with
  | nil => simp [pelem]
  | cons s ss ih =>
    simp only [List.foldl_cons]
    rw [ih]
    rw [pelem_addDerivedLink]
    constructor
    · rintro ((h | ⟨h1, h2⟩) | ⟨h1, h2⟩)
      · exact Or.inl h
      · exact Or.inr ⟨by simp [pelem, pfEq_symm s key h1], h2⟩
      · refine Or.inr ⟨?_, h2⟩
        simp [pelem] at h1 ⊢
        exact Or.inr h1
    · rintro (h | ⟨h1, h2⟩)
      · exact Or.inl (Or.inl h)
      · simp only [pelem, List.any_cons, Bool.or_eq_true] at h1
        rcases h1 with h1 | h1
        · exact Or.inl (Or.inr ⟨pfEq_symm key s h1, h2⟩)
        · exact Or.inr ⟨by simp [pelem, h1], h2⟩

/-- Membership in the fully derived `source_to_test_links` relation. -/
theorem pelem_sourceToTestLinks (stored : List (ProgramFile × List ProgramFile))
    (links0 : List (ProgramFile × List ProgramFile)) (key t' : ProgramFile) :
    pelem t' ((plookup (stored.foldl
        (fun links e => e.2.foldl (fun l s => addDerivedLink l s e.1) links) links0)
        key).getD []) = true ↔
      (pelem t' ((plookup links0 key).getD []) = true ∨
        ∃ e ∈ stored, pfEq t' e.1 = true ∧ pelem key e.2 = true) := by
  induction stored generalizing links0 with
  | nil => simp
  | cons e rest ih =>
    simp only [List.foldl_cons]
    rw [ih, pelem_innerFold]
    constructor
    · rintro ((h | ⟨h1, h2⟩) | ⟨e', he', h1, h2⟩)
      · exact Or.inl h
      · exact Or.inr ⟨e, by simp, h2, h1⟩
      · exact Or.inr ⟨e', by simp [he'], h1, h2⟩
    · rintro (h | ⟨e', he', h1, h2⟩)
      · exact Or.inl (Or.inl h)
      · rcases List.mem_cons.mp he' with rfl | he'
        · exact Or.inl (Or.inr ⟨h2, h1⟩)
        · exact Or.inr ⟨e', he', h1, h2⟩

/-- With pairwise-distinct dict keys, membership under the looked-up key
is membership under some matching entry. -/
theorem pelem_lookup_of_pairwise (stored : List (ProgramFile × List ProgramFile))
    (hkeys : stored.Pairwise (fun e1 e2 => pfEq e1.1 e2.1 = false))
    (t s : ProgramFile) :
    pelem s ((plookup stored t).getD []) = true ↔
      ∃ e ∈ stored, pfEq e.1 t = true ∧ pelem s e.2 = true := by
  induction stored with
  | nil => simp [plookup, pelem]
  | cons e rest ih =>
    rcases List.pairwise_cons.mp hkeys with ⟨hhead, htail⟩
    by_cases hk : pfEq e.1 t = true
    · have hpl : plookup (e :: rest) t = some e.2 := by
        obtain ⟨k', v'⟩ := e
        simp [plookup, hk]
      rw [hpl]
      simp only [Option.getD_some]
      constructor
      · intro h
        exact ⟨e, by simp, hk, h⟩
      · rintro ⟨e', he', h1, h2⟩
        rcases List.mem_cons.mp he' with rfl | he'
        · exact h2
        · have : pfEq e.1 e'.1 = true :=
            pfEq_trans e.1 t e'.1 hk (pfEq_symm e'.1 t h1)
          rw [hhead e' he'] at this
          exact absurd this (by simp)
    · have hpl : plookup (e :: rest) t = plookup rest t := by
        obtain ⟨k', v'⟩ := e
        simp only [plookup]
        rw [if_neg hk]
      rw [hpl, ih htail]
      constructor
      · rintro ⟨e', he', h1, h2⟩
        exact ⟨e', by simp [he'], h1, h2⟩
      · rintro ⟨e', he', h1, h2⟩
        rcases List.mem_cons.mp he' with rfl | he'
        · exact absurd h1 hk
        · exact ⟨e', he', h1, h2⟩

/-- C10: the derived source→test relation is the exact inverse of the
stored test→source relation.  For a graph whose stored dict has
pairwise-distinct keys (as Python dicts do), a test `t` lies in
`source_to_test_links[s]` precisely when the source `s` lies in
`test_to_source_links[t]`; a missing key reads as the empty set. -/
theorem c10_source_to_test_links_inverse (g : BGraph)
    (hkeys : g.testToSourceLinks.Pairwise (fun e1 e2 => pfEq e1.1 e2.1 = false))
    (s t : ProgramFile) :
    pelem t ((plookup (sourceToTestLinks g.testToSourceLinks) s).getD []) = true ↔
      pelem s ((plookup g.testToSourceLinks t).getD []) = true := by
  unfold sourceToTestLinks
  rw [pelem_sourceToTestLinks, pelem_lookup_of_pairwise g.testToSourceLinks hkeys]
  simp only [plookup, Option.getD_none, pelem, List.any_nil, Bool.false_eq_true, false_or]
  constructor
  · rintro ⟨e, he, h1, h2⟩
    exact ⟨e, he, pfEq_symm t e.1 h1, h2⟩
  · rintro ⟨e, he, h1, h2⟩
    exact ⟨e, he, pfEq_symm e.1 t h1, h2⟩

/-- Witness for C10 on a one-link graph. -/
theorem c10_source_to_test_links_inverse_witness :
    pelem ⟨"p", "ATest.java", true⟩
        ((plookup
          (sourceToTestLinks [(⟨"p", "ATest.java", true⟩, [⟨"p", "A.java", false⟩])])
          ⟨"p", "A.java", false⟩).getD []) = true ↔
      pelem ⟨"p", "A.java", false⟩
        ((plookup [(⟨"p", "ATest.java", true⟩, [⟨"p", "A.java", false⟩])]
          ⟨"p", "ATest.java", true⟩).getD []) = true :=
  c10_source_to_test_links_inverse
    ⟨[⟨"p", "A.java", false⟩], [⟨"p", "ATest.java", true⟩],
      [(⟨"p", "ATest.java", true⟩, [⟨"p", "A.java", false⟩])]⟩
    (by simp) ⟨"p", "A.java", false⟩ ⟨"p", "ATest.java", true⟩

end ApacheMiner

namespace ApacheMiner

/-! ## Lemmas for the C8 membership invariant -/

theorem lookup_of_mem_nodup {α β : Type} [DecidableEq α] (d : List (α × β))
    (k : α) (v : β) (hmem : (k, v) ∈ d) (hnd : (d.map Prod.fst).Nodup) :
    lookup d k = some v := by
  induction d with
  | nil => simp at hmem
  | cons e rest ih =>
    obtain ⟨k', v'⟩ := e
    rcases List.mem_cons.mp hmem with h | h
    · injection h with h1 h2
      subst h1
      subst h2
      simp [lookup]
    · simp only [List.map_cons, List.nodup_cons] at hnd
      have hk : k' ≠ k := by
        intro heq
        exact hnd.1 (List.mem_map.mpr ⟨(k, v), h, heq.symm⟩)
      simp [lookup, hk, ih h hnd.2]

theorem invP_pinsert (P : ProgramFile → Prop)
    (links : List (ProgramFile × List ProgramFile)) (k : ProgramFile)
    (v : List ProgramFile) (hInv : InvP P links) (hk : P k)
    (hv : ∀ b ∈ v, P b) : InvP P (pinsert links k v) := by
  intro e he
  rcases mem_pinsert links k v e he with h | h | ⟨v₀, h, h2⟩
  · exact hInv e h
  · subst h
    exact ⟨hk, hv⟩
  · refine ⟨(hInv (e.1, v₀) h).1, ?_⟩
    rw [h2]
    exact hv

theorem invP_addDerivedLink (P : ProgramFile → Prop)
    (links : List (ProgramFile × List ProgramFile)) (x y : ProgramFile)
    (hInv : InvP P links) (hx : P x) (hy : P y) :
    InvP P (addDerivedLink links x y) := by
  unfold addDerivedLink
  cases h : plookup links x with
  | some ts =>
    obtain ⟨k₀, hk₀, _⟩ := plookup_exists_entry links x ts h
    refine invP_pinsert P links x _ hInv hx ?_
    intro b hb
    rcases mem_padd ts y b hb with hbts | rfl
    · exact (hInv (k₀, ts) hk₀).2 b hbts
    · exact hy
  | none =>
    refine invP_pinsert P links x _ hInv hx ?_
    intro b hb
    rcases mem_padd [] y b hb with hbts | rfl
    · simp at hbts
    · exact hy

theorem invP_foldl_addDerivedLink (P : ProgramFile → Prop)
    (ls : List ProgramFile) (t : ProgramFile)
    (links : List (ProgramFile × List ProgramFile)) (hInv : InvP P links)
    (ht : P t) (hls : ∀ s ∈ ls, P s) :
    InvP P (ls.foldl (fun l s => addDerivedLink l s t) links) := by
  induction ls generalizing links with
  | nil => exact hInv
  | cons s ss ih =>
    simp only [List.foldl_cons]
    exact ih _ (invP_addDerivedLink P links s t hInv (hls s (by simp)) ht)
      (fun s' hs' => hls s' (by simp [hs']))

/-- Every value of a `baseNames` dict comes from a repository group's
selected file list. -/
theorem baseNames_values_sub (repo : List (String × RFiles))
    (select : RFiles → List ProgramFile) (f : ProgramFile)
    (h : f ∈ (baseNames repo select).map Prod.snd) :
    ∃ e ∈ repo, f ∈ select e.2 := by
  unfold baseNames at h
  suffices H : ∀ (rs : List (String × RFiles)) (acc : List (String × ProgramFile)),
      f ∈ (rs.foldl (fun acc e => (select e.2).foldl
        (fun acc g => dinsert acc (pfName g) g) acc) acc).map Prod.snd →
      f ∈ acc.map Prod.snd ∨ ∃ e ∈ rs, f ∈ select e.2 by
    rcases H repo [] h with h' | h'
    · simp at h'
    · exact h'
  intro rs
  induction rs with
  | nil => intro acc h'; exact Or.inl h'
  | cons e rest ih =>
    intro acc h'
    simp only [List.foldl_cons] at h'
    rcases ih _ h' with h1 | h1
    · have Hinner : ∀ (fs : List ProgramFile) (acc0 : List (String × ProgramFile)),
          f ∈ (fs.foldl (fun a g => dinsert a (pfName g) g) acc0).map Prod.snd →
          f ∈ acc0.map Prod.snd ∨ f ∈ fs := by
        intro fs
        induction fs with
        | nil => intro acc0 hh; exact Or.inl hh
        | cons g gs ihg =>
          intro acc0 hh
          simp only [List.foldl_cons] at hh
          rcases ihg _ hh with h2 | h2
          · have : ∀ (d : List (String × ProgramFile)) (k : String) (v : ProgramFile),
                f ∈ (dinsert d k v).map Prod.snd → f ∈ d.map Prod.snd ∨ f = v := by
              intro d
              induction d with
              | nil => intro k v hdd; simp [dinsert] at hdd; exact Or.inr hdd
              | cons p ps ihd =>
                intro k v hdd
                obtain ⟨k', v'⟩ := p
                by_cases hkk : k' = k
                · simp [dinsert, hkk] at hdd
                  rcases hdd with hdd | hdd
                  · exact Or.inr hdd
                  · exact Or.inl (by simp [hdd])
                · simp [dinsert, hkk] at hdd
                  rcases hdd with hdd | hdd
                  · exact Or.inl (by simp [hdd])
                  · rcases ihd k v (by simpa using hdd) with h3 | h3
                    · exact Or.inl (by simp at h3 ⊢; exact Or.inr h3)
                    · exact Or.inr h3
            rcases this _ _ _ h2 with h3 | h3
            · exact Or.inl h3
            · exact Or.inr (by simp [h3])
          · exact Or.inr (by simp [h2])
      rcases Hinner _ _ h1 with h2 | h2
      · exact Or.inl h2
      · exact Or.inr ⟨e, by simp, h2⟩
    · obtain ⟨e', he', hfe⟩ := h1
      exact Or.inr ⟨e', by simp [he'], hfe⟩

end ApacheMiner

namespace ApacheMiner

/-- The link-building fold of `NameStrategy._graph_generator` keeps every
key and member inside the dict value sets. -/
theorem nameStrategy_fold_invP (baseSrcs baseTests : List (String × ProgramFile))
    (names : List String) (links : List (ProgramFile × List ProgramFile))
    (hInv : InvP (fun x => x ∈ baseTests.map Prod.snd ∨ x ∈ baseSrcs.map Prod.snd) links) :
    InvP (fun x => x ∈ baseTests.map Prod.snd ∨ x ∈ baseSrcs.map Prod.snd)
      (names.foldl (fun links name =>
        match lookup baseSrcs (pyReplace name "Test" ""), lookup baseTests name with
        | some src, some test => addDerivedLink (addDerivedLink links test src) src test
        | _, _ => links) links) := by
  induction names generalizing links with
  | nil => exact hInv
  | cons name rest ih =>
    simp only [List.foldl_cons]
    apply ih
    cases hsrc : lookup baseSrcs (pyReplace name "Test" "") with
    | none =>
      cases ht : lookup baseTests name with
      | none => exact hInv
      | some test => exact hInv
    | some src =>
      cases ht : lookup baseTests name with
      | none => exact hInv
      | some test =>
        have hsrcP : src ∈ baseSrcs.map Prod.snd := lookup_mem_values _ _ _ hsrc
        have htP : test ∈ baseTests.map Prod.snd := lookup_mem_values _ _ _ ht
        exact invP_addDerivedLink _ _ src test
          (invP_addDerivedLink _ _ test src hInv (Or.inl htP) (Or.inr hsrcP))
          (Or.inr hsrcP) (Or.inl htP)

/-- C8 for the name strategy: membership invariant of the produced graph. -/
theorem nameStrategy_linkInvariant (repo : List (String × RFiles))
    (hwk : repoWellKinded repo) : linkInvariant (nameStrategyGraph repo) := by
  have hfold := nameStrategy_fold_invP (baseNames repo RFiles.sourceFiles)
    (baseNames repo RFiles.testFiles)
    ((baseNames repo RFiles.testFiles).map Prod.fst) [] (by intro e he; simp at he)
  intro e he
  have hkind : ∀ x, (x ∈ (baseNames repo RFiles.testFiles).map Prod.snd ∨
      x ∈ (baseNames repo RFiles.sourceFiles).map Prod.snd) →
      kindMem (nameStrategyGraph repo) x := by
    intro x hx
    unfold kindMem
    rcases hx with hx | hx
    · obtain ⟨e', he', hxe⟩ := baseNames_values_sub repo RFiles.testFiles x hx
      have : x.isTest = true := (hwk e' he').1 x hxe
      exact ⟨fun _ => hx, fun hfalse => (by rw [this] at hfalse; cases hfalse)⟩
    · obtain ⟨e', he', hxe⟩ := baseNames_values_sub repo RFiles.sourceFiles x hx
      have : x.isTest = false := (hwk e' he').2 x hxe
      exact ⟨fun htrue => (by rw [this] at htrue; cases htrue), fun _ => hx⟩
  have he' : e ∈ ((baseNames repo RFiles.testFiles).map Prod.fst).foldl
      (fun links name =>
        match lookup (baseNames repo RFiles.sourceFiles) (pyReplace name "Test" ""),
          lookup (baseNames repo RFiles.testFiles) name with
        | some src, some test => addDerivedLink (addDerivedLink links test src) src test
        | _, _ => links) [] := he
  obtain ⟨h1, h2⟩ := hfold e he'
  exact ⟨hkind e.1 h1, fun b hb => hkind b (h2 b hb)⟩

/-- `ImportStrategy.fetch_links` only returns sources of the looked-up
project group. -/
theorem fetchLinks_sub (repo : List (String × RFiles))
    (gsc : ProgramFile → List String) (t : ProgramFile) (fls : RFiles)
    (ls : List ProgramFile) (hrepo : lookup repo t.project = some fls)
    (h : fetchLinks repo gsc t = some ls) :
    ∀ b ∈ ls, b ∈ fls.sourceFiles := by
  unfold fetchLinks at h
  rw [hrepo] at h
  have h' : fls.sourceFiles.foldlM (fun acc s => (importNameOf s).bind (fun n =>
      some (if (fetchImportNames gsc t).contains n then padd acc s else acc))) []
      = some ls := h
  clear h
  suffices H : ∀ (srcs : List ProgramFile) (acc : List ProgramFile),
      (∀ b ∈ acc, b ∈ fls.sourceFiles) → (∀ s ∈ srcs, s ∈ fls.sourceFiles) →
      srcs.foldlM (fun acc s => (importNameOf s).bind (fun n =>
        some (if (fetchImportNames gsc t).contains n then padd acc s else acc))) acc
        = some ls →
      ∀ b ∈ ls, b ∈ fls.sourceFiles by
    exact H fls.sourceFiles [] (by intro b hb; simp at hb) (fun s hs => hs) h'
  intro srcs
  induction srcs with
  | nil =>
    intro acc hacc _ hfold
    simp only [List.foldlM_nil, Option.pure_def, Option.some.injEq] at hfold
    subst hfold
    exact hacc
  | cons s ss ih =>
    intro acc hacc hsrcs hfold
    simp only [List.foldlM_cons] at hfold
    cases hn : importNameOf s with
    | none => rw [hn] at hfold; cases hfold
    | some n =>
      rw [hn] at hfold
      simp only [Option.bind_eq_bind, Option.some_bind] at hfold
      refine ih _ ?_ (fun s' hs' => hsrcs s' (by simp [hs'])) hfold
      intro b hb
      by_cases hc : (fetchImportNames gsc t).contains n = true
      · rw [if_pos hc] at hb
        rcases mem_padd acc s b hb with hba | hbs
        · exact hacc b hba
        · rw [hbs]
          exact hsrcs s (by simp)
      · rw [if_neg hc] at hb
        exact hacc b hb

/-- The link fold of one import-strategy subgraph keeps keys and members
inside the group's own file sets. -/
theorem importFold_invP (repo : List (String × RFiles))
    (gsc : ProgramFile → List String) (k : String) (files : RFiles)
    (hmem : (k, files) ∈ repo) (hpk : repoProjectKeyed repo)
    (tests : List ProgramFile) (links links' : List (ProgramFile × List ProgramFile))
    (htests : ∀ t ∈ tests, t ∈ files.testFiles)
    (hInv : InvP (fun x => x ∈ files.testFiles ∨ x ∈ files.sourceFiles) links)
    (hfold : tests.foldlM (fun links t => (fetchLinks repo gsc t).bind (fun ls =>
        some (ls.foldl (fun links s => addDerivedLink links s t) (pinsert links t ls))))
        links = some links') :
    InvP (fun x => x ∈ files.testFiles ∨ x ∈ files.sourceFiles) links' := by
  induction tests generalizing links with
  | nil =>
    simp only [List.foldlM_nil, Option.pure_def, Option.some.injEq] at hfold
    subst hfold
    exact hInv
  | cons t ts ih =>
    simp only [List.foldlM_cons] at hfold
    cases hfl : fetchLinks repo gsc t with
    | none => rw [hfl] at hfold; cases hfold
    | some ls =>
      rw [hfl] at hfold
      simp only [Option.bind_eq_bind, Option.some_bind] at hfold
      have htf : t ∈ files.testFiles := htests t (by simp)
      have hproj : t.project = k := hpk.2 (k, files) hmem t htf
      have hlook : lookup repo t.project = some files := by
        rw [hproj]
        exact lookup_of_mem_nodup repo k files hmem hpk.1
      have hls : ∀ b ∈ ls, b ∈ files.sourceFiles := fetchLinks_sub repo gsc t files ls hlook hfl
      refine ih _ (fun t' ht' => htests t' (by simp [ht'])) ?_ hfold
      refine invP_foldl_addDerivedLink _ ls t _ ?_ (Or.inl htf) (fun s hs => Or.inr (hls s hs))
      exact invP_pinsert _ links t ls hInv (Or.inl htf) (fun b hb => Or.inr (hls b hb))

/-- C8 for the import strategy: membership invariant of each subgraph. -/
theorem importSubgraph_linkInvariant (repo : List (String × RFiles))
    (gsc : ProgramFile → List String) (k : String) (files : RFiles) (g : SGraph)
    (hmem : (k, files) ∈ repo) (hwk : repoWellKinded repo) (hpk : repoProjectKeyed repo)
    (h : importSubgraph repo gsc files = some g) : linkInvariant g := by
  unfold importSubgraph at h
  cases hfold : files.testFiles.foldlM (fun links t => (fetchLinks repo gsc t).bind
      (fun ls => some (ls.foldl (fun links s => addDerivedLink links s t)
        (pinsert links t ls)))) [] with
  | none =>
    rw [show (files.testFiles.foldlM (fun links t => do
        let ls ← fetchLinks repo gsc t
        pure (ls.foldl (fun links s => addDerivedLink links s t) (pinsert links t ls)))
        [] : Option _) = none from hfold] at h
    cases h
  | some links =>
    rw [show (files.testFiles.foldlM (fun links t => do
        let ls ← fetchLinks repo gsc t
        pure (ls.foldl (fun links s => addDerivedLink links s t) (pinsert links t ls)))
        [] : Option _) = some links from hfold] at h
    simp only [Option.bind_eq_bind, Option.some_bind, Option.some.injEq] at h
    have hInv := importFold_invP repo gsc k files hmem hpk files.testFiles [] links
      (fun t ht => ht) (by intro e he; simp at he) hfold
    simp only [Option.pure_def, Option.some.injEq] at h
    subst h
    intro e he
    have hkind : ∀ x, (x ∈ files.testFiles ∨ x ∈ files.sourceFiles) →
        kindMem ⟨files.sourceFiles, files.testFiles, links⟩ x := by
      intro x hx
      unfold kindMem
      rcases hx with hx | hx
      · have : x.isTest = true := (hwk (k, files) hmem).1 x hx
        exact ⟨fun _ => hx, fun hfalse => (by rw [this] at hfalse; cases hfalse)⟩
      · have : x.isTest = false := (hwk (k, files) hmem).2 x hx
        exact ⟨fun htrue => (by rw [this] at htrue; cases htrue), fun _ => hx⟩
    obtain ⟨h1, h2⟩ := hInv e he
    exact ⟨hkind e.1 h1, fun b hb => hkind b (h2 b hb)⟩

/-- Every graph yielded by `ImportStrategy._graph_generator` comes from
one repository group. -/
theorem importStrategyGraphs_mem (repo : List (String × RFiles))
    (gsc : ProgramFile → List String) (gs : List SGraph)
    (h : importStrategyGraphs repo gsc = some gs) (g : SGraph) (hg : g ∈ gs) :
    ∃ e ∈ repo, importSubgraph repo gsc e.2 = some g := by
  unfold importStrategyGraphs at h
  have h2 : repo.foldlM (fun acc e => (importSubgraph repo gsc e.2).bind
      (fun g => some (acc ++ [g]))) [] = some gs := h
  clear h
  suffices H : ∀ (rs : List (String × RFiles)) (acc gs' : List SGraph),
      rs.foldlM (fun acc e => (importSubgraph repo gsc e.2).bind
        (fun g => some (acc ++ [g]))) acc = some gs' → g ∈ gs' →
      g ∈ acc ∨ ∃ e ∈ rs, importSubgraph repo gsc e.2 = some g by
    rcases H repo [] gs h2 hg with h' | h'
    · simp at h'
    · exact h'
  intro rs
  induction rs with
  | nil =>
    intro acc gs' hfold hmem
    simp only [List.foldlM_nil, Option.pure_def, Option.some.injEq] at hfold
    subst hfold
    exact Or.inl hmem
  | cons e rest ih =>
    intro acc gs' hfold hmem
    simp only [List.foldlM_cons] at hfold
    cases hsub : importSubgraph repo gsc e.2 with
    | none => rw [hsub] at hfold; cases hfold
    | some g' =>
      rw [hsub] at hfold
      simp only [Option.bind_eq_bind, Option.some_bind] at hfold
      rcases ih _ _ hfold hmem with h' | h'
      · rcases List.mem_append.mp h' with h'' | h''
        · exact Or.inl h''
        · simp only [List.mem_singleton] at h''
          subst h''
          exact Or.inr ⟨e, by simp, hsub⟩
      · obtain ⟨e', he', hsub'⟩ := h'
        exact Or.inr ⟨e', by simp [he'], hsub'⟩

/-- C8: BindingGraph membership invariant.  For every graph produced by
the name-based strategy over a well-kinded repository, and for every
subgraph produced by the reference-based strategy over a well-kinded,
project-keyed repository, every test artifact appearing in a link belongs
to the graph's test-file set and every source artifact appearing in a link
belongs to the graph's source-file set. -/
theorem c8_binding_graph_membership (repoN repoI : List (String × RFiles))
    (gsc : ProgramFile → List String) (gs : List SGraph)
    (hwkN : repoWellKinded repoN) (hwkI : repoWellKinded repoI)
    (hpkI : repoProjectKeyed repoI)
    (hgs : importStrategyGraphs repoI gsc = some gs) :
    linkInvariant (nameStrategyGraph repoN) ∧ ∀ g ∈ gs, linkInvariant g := by
  refine ⟨nameStrategy_linkInvariant repoN hwkN, ?_⟩
  intro g hg
  obtain ⟨e, he, hsub⟩ := importStrategyGraphs_mem repoI gsc gs hgs g hg
  exact importSubgraph_linkInvariant repoI gsc e.1 e.2 g he hwkI hpkI hsub

end ApacheMiner

namespace ApacheMiner

/-- Witness for C8: a one-project repository for each strategy, the
reference-based one with empty file contents. -/
theorem c8_binding_graph_membership_witness :
    linkInvariant (nameStrategyGraph
      [("p", ⟨[⟨"p", "A.java", false⟩], [⟨"p", "ATest.java", true⟩]⟩)]) ∧
    ∀ g ∈ [(⟨[⟨"p", "src/main/java/A.java", false⟩],
              [⟨"p", "src/test/java/ATest.java", true⟩],
              [(⟨"p", "src/test/java/ATest.java", true⟩, [])]⟩ : SGraph)],
      linkInvariant g :=
  c8_binding_graph_membership
    [("p", ⟨[⟨"p", "A.java", false⟩], [⟨"p", "ATest.java", true⟩]⟩)]
    [("p", ⟨[⟨"p", "src/main/java/A.java", false⟩],
            [⟨"p", "src/test/java/ATest.java", true⟩]⟩)]
    (fun _ => []) _
    (by intro e he; simp at he; subst he; refine ⟨?_, ?_⟩ <;> (intro t ht; simp at ht; rw [ht]))
    (by intro e he; simp at he; subst he; refine ⟨?_, ?_⟩ <;> (intro t ht; simp at ht; rw [ht]))
    (by refine ⟨by simp, ?_⟩
        intro e he t ht
        simp at he
        subst he
        simp at ht
        rw [ht])
    (by decide)

end ApacheMiner
